import Mathlib

/-
Shallow embedding of the listing-filtering and price-aggregation pipeline of
src/scraper.py.  Strings are modelled as `List Char` (Python `str`), Python
floats as exact rationals `ℚ`, and the HTTP/HTML glue is treated as an
external collaborator that supplies candidate listings (title, text block),
exactly as the loop from line 163 onward consumes them.
-/

namespace Scraper

/-- ASCII whitespace, as matched by Python's default `str.split`/`str.strip`
and the regex class backslash-s restricted to ASCII. -/
def isSpace (c : Char) : Bool :=
  c == ' ' || c == '\t' || c == '\n' || c == '\r' || c == Char.ofNat 11 || c == Char.ofNat 12

/-- Python `str.lower()` restricted to ASCII letters. -/
def lowerL (l : List Char) : List Char := l.map Char.toLower

/-- `listStartsWith w l` holds when `l` begins with `w`. -/
def listStartsWith : List Char → List Char → Bool
  | [], _ => true
  | _ :: _, [] => false
  | a :: w, b :: l => a == b && listStartsWith w l

/-- `containsSeq w l`: `w` occurs as a contiguous substring of `l`
(Python `w in l`). -/
def containsSeq (w : List Char) : List Char → Bool
  | [] => w.isEmpty
  | c :: l => listStartsWith w (c :: l) || containsSeq w l

/-- The portion of `l` before the first occurrence of `w`; models
Python `l.split(w)[0]` for nonempty `w`. -/
def beforeSeq (w : List Char) : List Char → List Char
  | [] => []
  | c :: l => if listStartsWith w (c :: l) then [] else c :: beforeSeq w l

/-- Python `str.replace("US", "")`: delete every occurrence of `US`,
scanning left to right. -/
def removeUS : List Char → List Char
  | [] => []
  | [c] => [c]
  | a :: b :: l => if a == 'U' && b == 'S' then removeUS l else a :: removeUS (b :: l)

/-- Drop trailing whitespace. -/
def dropEndWs (l : List Char) : List Char := (l.reverse.dropWhile isSpace).reverse

/-- Python `str.strip()` (ASCII whitespace). -/
def trimWs (l : List Char) : List Char := dropEndWs (l.dropWhile isSpace)

/-- Helper for `splitWs`, accumulating the current word reversed. -/
def splitWsAux : List Char → List Char → List (List Char)
  | [], acc => if acc.isEmpty then [] else [acc.reverse]
  | c :: l, acc =>
    if isSpace c then
      if acc.isEmpty then splitWsAux l [] else acc.reverse :: splitWsAux l []
    else splitWsAux l (c :: acc)

/-- Python `str.split()` with no argument: split on whitespace runs,
dropping empty fragments. -/
def splitWs (l : List Char) : List (List Char) := splitWsAux l []

/-- Numeric value of a digit string. -/
def digitsToNat (l : List Char) : Nat := l.foldl (fun a c => 10 * a + (c.toNat - 48)) 0

/-- Modelled from the spec: the unsigned part of Python's built-in
`float()` parser, restricted to plain base-10 decimal notation
(digits with an optional single point; no exponent, no inf/nan,
no underscores), which is the only form the pipeline produces.
The decimal `ip.fp` denotes the exact rational
`(value of the digit string ip ++ fp) / 10 ^ |fp|`. -/
def parseUnsignedFloat (l : List Char) : Option ℚ :=
  let ip := l.takeWhile Char.isDigit
  match l.dropWhile Char.isDigit with
  | [] => if ip.isEmpty then none else some (digitsToNat ip : ℚ)
  | '.' :: fp =>
    if fp.all Char.isDigit && !(ip.isEmpty && fp.isEmpty) then
      some (mkRat (digitsToNat (ip ++ fp)) (10 ^ fp.length))
    else none
  | _ => none

/-- Python `float(s)`, restricted as in `parseUnsignedFloat`;
returns `none` where Python raises `ValueError`. -/
def parseFloat (l : List Char) : Option ℚ :=
  match l with
  | '+' :: t => parseUnsignedFloat t
  | '-' :: t => (parseUnsignedFloat t).map (fun q => -q)
  | _ => parseUnsignedFloat l

/-- `re.sub(r"[^a-z0-9 whitespace]", " ", text.lower())` on the character list. -/
def normalizeL (l : List Char) : List Char :=
  (lowerL l).map fun c => if c.isLower || c.isDigit || isSpace c then c else ' '

/-- `normalize` of src/scraper.py line 66. -/
def normalize (s : String) : String := String.mk (normalizeL s.data)

/-- `tokenize` on character lists: normalized text split on whitespace. -/
def tokenizeL (l : List Char) : List (List Char) := splitWs (normalizeL l)

/-- `tokenize` of src/scraper.py line 70. -/
def tokenize (s : String) : List (List Char) := tokenizeL s.data

/-- `ACCESSORY_KEYWORDS` of src/scraper.py lines 14-37, verbatim. -/
def ACCESSORY_KEYWORDS : List String :=
  ["case", "charger", "cable", "screen protector", "protector", "adapter", "dock",
   "stand", "mount", "holder", "skin", "cover", "glass", "tempered", "wallet",
   "strap", "band", "cord", "hub", "battery", "power bank", "charging pad"]

/-- `QUERY_STOPWORDS` of src/scraper.py line 40. -/
def QUERY_STOPWORDS : List (List Char) :=
  ["for".data, "the".data, "a".data, "an".data, "and".data, "or".data,
   "new".data, "brand".data]

/-- `important_query_tokens` of src/scraper.py lines 74-77. -/
def important_query_tokens (query : String) : List (List Char) :=
  (tokenize query).filter fun t => !QUERY_STOPWORDS.contains t

/-- `looks_like_accessory` of src/scraper.py lines 80-82. -/
def looks_like_accessory (title : String) : Bool :=
  ACCESSORY_KEYWORDS.any fun w => containsSeq w.data (lowerL title.data)

/-- `title_exact_match` of src/scraper.py lines 85-94. -/
def title_exact_match (title query : String) : Bool :=
  let qts := important_query_tokens query
  if qts.isEmpty then true
  else qts.all fun t => (tokenize title).contains t

/-- Length consumed by the greedy comma-grouped part `(?:,[0-9]{3})*`
of PRICE_PATTERN. -/
def commaGroupsLen : List Char → Nat
  | ',' :: a :: b :: c :: l =>
    if a.isDigit && b.isDigit && c.isDigit then 4 + commaGroupsLen l else 0
  | _ => 0

/-- Length consumed by the optional fraction part of PRICE_PATTERN. -/
def fracLen : List Char → Nat
  | '.' :: a :: b :: _ => if a.isDigit && b.isDigit then 3 else 0
  | _ => 0

/-- Length of the match of PRICE_PATTERN (src/scraper.py line 11) anchored at
the head of `l`, following Python's greedy regex semantics, or `none`. -/
def matchPriceLen (l : List Char) : Option Nat :=
  let p :=
    match l with
    | 'U' :: 'S' :: r => (2 + (r.takeWhile isSpace).length, r.dropWhile isSpace)
    | _ => (0, l)
  match p.2 with
  | '$' :: r1 =>
    let wLen := (r1.takeWhile isSpace).length
    let r2 := r1.dropWhile isSpace
    let ds := r2.takeWhile Char.isDigit
    if ds.isEmpty then none
    else
      let dLen := min 3 ds.length
      let r3 := r2.drop dLen
      let gLen := commaGroupsLen r3
      some (p.1 + 1 + wLen + dLen + gLen + fracLen (r3.drop gLen))
  | _ => none

/-- `PRICE_PATTERN.search`: the leftmost match of the price regex in `l`. -/
def findPrice : List Char → Option (List Char)
  | [] => none
  | c :: l =>
    match matchPriceLen (c :: l) with
    | some n => some ((c :: l).take n)
    | none => findPrice l

/-- `extract_price_text`: price search over a string. -/
def extract_price_text (s : String) : Option (List Char) := findPrice s.data

/-- Characters kept by `replace("$", "").replace(",", "")`. -/
def keepPriceChar (c : Char) : Bool := !(c == '$' || c == ',')

/-- The range separator `"to"` of src/scraper.py line 49. -/
def priceRangeSep : List Char := ['t', 'o']

/-- `replace("US", "").replace("$", "").replace(",", "").strip()`
of src/scraper.py line 53. -/
def cleanStage2 (l : List Char) : List Char :=
  trimWs (List.filter keepPriceChar (removeUS l))

/-- Lines 56-58: keep the first whitespace-delimited word, if any. -/
def codeSel (l : List Char) : List Char :=
  match splitWs l with
  | [] => l
  | w :: _ => w

/-- `clean_price` of src/scraper.py lines 43-63 on character lists. -/
def cleanPriceL (l : List Char) : Option ℚ :=
  if l = [] then none
  else
    parseFloat (codeSel (cleanStage2
      (if containsSeq priceRangeSep l then trimWs (beforeSeq priceRangeSep l) else l)))

/-- `clean_price` of src/scraper.py lines 43-63. -/
def clean_price (s : String) : Option ℚ := cleanPriceL s.data

/-- Reference cleaning procedure worded exactly as the specification states it:
keep the part before the first "to", delete the substrings "US", "$" and ","
and trim, keep the first whitespace-delimited fragment, parse as a base-10
floating-point number. -/
def refCleanPriceL (l : List Char) : Option ℚ :=
  parseFloat ((splitWs (cleanStage2
    (if containsSeq priceRangeSep l then beforeSeq priceRangeSep l else l))).headD [])

/-- String version of `refCleanPriceL`. -/
def refCleanPrice (s : String) : Option ℚ := refCleanPriceL s.data

/-- A candidate listing as consumed by the core: the stripped text of its
title link and the aggregate visible text of its card. -/
structure Listing where
  title : String
  text : String
deriving DecidableEq

/-- The result record returned by `get_item_value_sold_new`
(src/scraper.py lines 217-227). -/
structure ResultSummary where
  query : String
  raw_prices : List (List Char)
  cleaned_prices : List ℚ
  count : Nat
  average_price : ℚ
  median_price : ℚ
  min_price : ℚ
  max_price : ℚ
  error : Option String
deriving DecidableEq

/-- The per-listing body of the loop at src/scraper.py lines 165-193:
the price text of an admitted listing, `none` when the listing is skipped.
`trimWs` models `get_text(strip=True)` on the title link. -/
def acceptedPrice (l : Listing) (query : String) : Option (List Char) :=
  let t := trimWs l.title.data
  if t = [] then none
  else if containsSeq ("shop on ebay".data) (lowerL t) then none
  else if !title_exact_match (String.mk t) query then none
  else if looks_like_accessory (String.mk t) then none
  else findPrice l.text.data

/-- The accumulation loop of src/scraper.py lines 163-200: append each
accepted price and break as soon as `len(raw_prices) >= max_results`. -/
def collectAux (query : String) (maxResults : ℤ) : List Listing → List (List Char) → List (List Char)
  | [], acc => acc
  | l :: rest, acc =>
    match acceptedPrice l query with
    | none => collectAux query maxResults rest acc
    | some p =>
      if maxResults ≤ ((acc ++ [p]).length : ℤ) then acc ++ [p]
      else collectAux query maxResults rest (acc ++ [p])

/-- Number of loop iterations performed (listings inspected) by the
loop of src/scraper.py lines 165-200. -/
def inspectCount (query : String) (maxResults : ℤ) : List Listing → List (List Char) → Nat
  | [], _ => 0
  | l :: rest, acc =>
    match acceptedPrice l query with
    | none => 1 + inspectCount query maxResults rest acc
    | some p =>
      if maxResults ≤ ((acc ++ [p]).length : ℤ) then 1
      else 1 + inspectCount query maxResults rest (acc ++ [p])

/-- The `raw_prices` local of src/scraper.py line 163/197. -/
def rawPricesOf (cands : List Listing) (query : String) (maxResults : ℤ) : List (List Char) :=
  collectAux query maxResults cands []

/-- The `cleaned` local of src/scraper.py lines 202-203. -/
def cleanedOf (cands : List Listing) (query : String) (maxResults : ℤ) : List ℚ :=
  ((rawPricesOf cands query maxResults).filterMap cleanPriceL).filter fun c => decide (0 < c)

/-- Python `min` of a list (the empty case is never reached by the code). -/
def minQ : List ℚ → ℚ
  | [] => 0
  | h :: t => t.foldl min h

/-- Python `max` of a list (the empty case is never reached by the code). -/
def maxQ : List ℚ → ℚ
  | [] => 0
  | h :: t => t.foldl max h

/-- Python `statistics.median`: middle element of the sorted list, or the
average of the two middle elements when the length is even. -/
def medianQ (l : List ℚ) : ℚ :=
  let s := l.insertionSort (· ≤ ·)
  if s.length % 2 = 1 then s.getD (s.length / 2) 0
  else (s.getD (s.length / 2 - 1) 0 + s.getD (s.length / 2) 0) / 2

/-- The degraded-result message of src/scraper.py line 209. -/
def noMatchMsg : String := "No matching sold NEW listings found."

/-- `get_item_value_sold_new` of src/scraper.py lines 99-227, from the point
where the candidate listings are in hand (the fetch and HTML selection are
the out-of-scope collaborator supplying `cands`). -/
def get_item_value_sold_new (cands : List Listing) (search_term : String)
    (max_results : ℤ) : ResultSummary :=
  let raw := rawPricesOf cands search_term max_results
  let cleaned := cleanedOf cands search_term max_results
  if cleaned.length = 0 then
    ⟨search_term, raw, cleaned, cleaned.length, 0, 0, 0, 0, some noMatchMsg⟩
  else
    ⟨search_term, raw, cleaned, cleaned.length, cleaned.sum / (cleaned.length : ℚ),
      medianQ cleaned, minQ cleaned, maxQ cleaned, none⟩

/-! ### Basic lemmas about the aggregation result -/

theorem get_item_pos (cands : List Listing) (q : String) (m : ℤ)
    (h : cleanedOf cands q m ≠ []) :
    get_item_value_sold_new cands q m =
      ⟨q, rawPricesOf cands q m, cleanedOf cands q m, (cleanedOf cands q m).length,
        (cleanedOf cands q m).sum / ((cleanedOf cands q m).length : ℚ),
        medianQ (cleanedOf cands q m), minQ (cleanedOf cands q m),
        maxQ (cleanedOf cands q m), none⟩ := by
  have hlen : ¬ (cleanedOf cands q m).length = 0 := by
    simpa [List.length_eq_zero] using h
  simp only [get_item_value_sold_new]
  rw [if_neg hlen]

theorem get_item_nil (cands : List Listing) (q : String) (m : ℤ)
    (h : cleanedOf cands q m = []) :
    get_item_value_sold_new cands q m =
      ⟨q, rawPricesOf cands q m, cleanedOf cands q m, (cleanedOf cands q m).length,
        0, 0, 0, 0, some noMatchMsg⟩ := by
  have hlen : (cleanedOf cands q m).length = 0 := by simp [h]
  simp only [get_item_value_sold_new]
  rw [if_pos hlen]

/-! ### Substring and token lemmas -/

theorem listStartsWith_iff (w : List Char) : ∀ l : List Char,
    listStartsWith w l = true ↔ ∃ t, l = w ++ t := by
  induction w with
  | nil =>
    intro l
    simp only [listStartsWith, List.nil_append]
    exact ⟨fun _ => ⟨l, rfl⟩, fun _ => trivial⟩
  | cons a w ih =>
    intro l
    cases l with
    | nil =>
      simp only [listStartsWith, List.cons_append]
      constructor
      · intro h; cases h
      · rintro ⟨t, ht⟩; cases ht
    | cons b l =>
      simp only [listStartsWith, Bool.and_eq_true, beq_iff_eq, ih, List.cons_append,
        List.cons.injEq]
      constructor
      · rintro ⟨rfl, t, rfl⟩; exact ⟨t, rfl, rfl⟩
      · rintro ⟨t, rfl, rfl⟩; exact ⟨rfl, t, rfl⟩

theorem containsSeq_iff (w : List Char) : ∀ l : List Char,
    containsSeq w l = true ↔ ∃ p q, l = p ++ w ++ q := by
  intro l
  induction l with
  | nil =>
    simp only [containsSeq, List.isEmpty_iff]
    constructor
    · rintro rfl; exact ⟨[], [], rfl⟩
    · rintro ⟨p, q, hpq⟩
      rcases List.append_eq_nil.mp hpq.symm with ⟨h1, -⟩
      exact (List.append_eq_nil.mp h1).2
  | cons c l ih =>
    simp only [containsSeq, Bool.or_eq_true, listStartsWith_iff, ih]
    constructor
    · rintro (⟨t, ht⟩ | ⟨p, q, rfl⟩)
      · exact ⟨[], t, by simpa using ht⟩
      · exact ⟨c :: p, q, rfl⟩
    · rintro ⟨p, q, hl⟩
      cases p with
      | nil => exact Or.inl ⟨q, by simpa using hl⟩
      | cons x p =>
        right
        rw [List.cons_append, List.cons_append] at hl
        injection hl with h1 h2
        exact ⟨p, q, h2⟩

/-! ### Loop lemmas -/

theorem get_item_raw (cands : List Listing) (q : String) (m : ℤ) :
    (get_item_value_sold_new cands q m).raw_prices = rawPricesOf cands q m := by
  by_cases h : cleanedOf cands q m = []
  · rw [get_item_nil _ _ _ h]
  · rw [get_item_pos _ _ _ h]

theorem get_item_cleaned (cands : List Listing) (q : String) (m : ℤ) :
    (get_item_value_sold_new cands q m).cleaned_prices = cleanedOf cands q m := by
  by_cases h : cleanedOf cands q m = []
  · rw [get_item_nil _ _ _ h]
  · rw [get_item_pos _ _ _ h]

theorem get_item_count (cands : List Listing) (q : String) (m : ℤ) :
    (get_item_value_sold_new cands q m).count = (cleanedOf cands q m).length := by
  by_cases h : cleanedOf cands q m = []
  · rw [get_item_nil _ _ _ h]
  · rw [get_item_pos _ _ _ h]

theorem collectAux_length_le (q : String) (m : ℤ) :
    ∀ (cands : List Listing) (acc : List (List Char)),
      (acc.length : ℤ) < m → ((collectAux q m cands acc).length : ℤ) ≤ m := by
  intro cands
  induction cands with
  | nil => intro acc h; simpa [collectAux] using le_of_lt h
  | cons l rest ih =>
    intro acc h
    cases hap : acceptedPrice l q with
    | none => simpa only [collectAux, hap] using ih acc h
    | some p =>
      simp only [collectAux, hap]
      have hlp : ((acc ++ [p]).length : ℤ) = (acc.length : ℤ) + 1 := by simp
      by_cases hc : m ≤ (((acc ++ [p]).length : ℕ) : ℤ)
      · rw [if_pos hc]
        omega
      · rw [if_neg hc]
        exact ih _ (by omega)

theorem collectAux_stop (q : String) (m : ℤ) :
    ∀ (pre : List Listing) (acc : List (List Char)) (post : List Listing),
      m ≤ ((collectAux q m pre acc).length : ℤ) → (acc.length : ℤ) < m →
      collectAux q m (pre ++ post) acc = collectAux q m pre acc ∧
      inspectCount q m (pre ++ post) acc = inspectCount q m pre acc := by
  intro pre
  induction pre with
  | nil =>
    intro acc post hlen hacc
    rw [collectAux] at hlen
    omega
  | cons l rest ih =>
    intro acc post hlen hacc
    cases hap : acceptedPrice l q with
    | none =>
      have hlen' : m ≤ ((collectAux q m rest acc).length : ℤ) := by
        simpa only [collectAux, hap] using hlen
      obtain ⟨h1, h2⟩ := ih acc post hlen' hacc
      constructor
      · simp only [List.cons_append, collectAux, hap]
        exact h1
      · simp only [List.cons_append, inspectCount, hap]
        exact congrArg (1 + ·) h2
    | some p =>
      by_cases hc : m ≤ (((acc ++ [p]).length : ℕ) : ℤ)
      · constructor
        · simp only [List.cons_append, collectAux, hap, if_pos hc]
        · simp only [List.cons_append, inspectCount, hap, if_pos hc]
      · have hlen' : m ≤ ((collectAux q m rest (acc ++ [p])).length : ℤ) := by
          simpa only [collectAux, hap, if_neg hc] using hlen
        obtain ⟨h1, h2⟩ := ih (acc ++ [p]) post hlen' (lt_of_not_le hc)
        constructor
        · simp only [List.cons_append, collectAux, hap, if_neg hc]
          exact h1
        · simp only [List.cons_append, inspectCount, hap, if_neg hc]
          exact congrArg (1 + ·) h2

theorem collectAux_all_none (q : String) (m : ℤ) :
    ∀ (cands : List Listing) (acc : List (List Char)),
      (∀ l ∈ cands, acceptedPrice l q = none) → collectAux q m cands acc = acc := by
  intro cands
  induction cands with
  | nil => intro acc _; rfl
  | cons l rest ih =>
    intro acc h
    have hap : acceptedPrice l q = none := h l (List.mem_cons_self l rest)
    simp only [collectAux, hap]
    exact ih acc fun l' hl' => h l' (List.mem_cons_of_mem l hl')

theorem collectAux_first_hit (q : String) (m : ℤ) (hm : m ≤ 0) :
    ∀ cands : List Listing,
      (∃ l ∈ cands, acceptedPrice l q ≠ none) → (collectAux q m cands []).length = 1 := by
  intro cands
  induction cands with
  | nil => rintro ⟨l, hl, -⟩; cases hl
  | cons l rest ih =>
    rintro ⟨l', hl', h'⟩
    cases hap : acceptedPrice l q with
    | some p =>
      have hc : m ≤ (1 : ℤ) := by omega
      simp [collectAux, hap, hc]
    | none =>
      simp only [collectAux, hap]
      apply ih
      rcases List.mem_cons.mp hl' with rfl | hmem
      · exact absurd hap h'
      · exact ⟨l', hmem, h'⟩

/-! ### Whitespace lemmas for the clean_price refinement -/

theorem isSpace_cases (c : Char) (h : isSpace c = true) :
    c = ' ' ∨ c = '\t' ∨ c = '\n' ∨ c = '\r' ∨ c = Char.ofNat 11 ∨ c = Char.ofNat 12 := by
  have h' := h
  simp only [isSpace, Bool.or_eq_true, beq_iff_eq] at h'
  tauto

theorem isSpace_props (c : Char) (h : isSpace c = true) :
    c ≠ '+' ∧ c ≠ '-' ∧ c.isDigit = false ∧ c ≠ '.' ∧ c ≠ 'U' ∧ c ≠ 'S' ∧
    keepPriceChar c = true := by
  rcases isSpace_cases c h with rfl | rfl | rfl | rfl | rfl | rfl <;> exact ⟨by decide,
    by decide, by decide, by decide, by decide, by decide, by decide⟩

theorem dropWhile_ws_append (w t : List Char) (hw : ∀ c ∈ w, isSpace c = true) :
    (w ++ t).dropWhile isSpace = t.dropWhile isSpace := by
  induction w with
  | nil => rfl
  | cons c w ih =>
    rw [List.cons_append, List.dropWhile_cons, if_pos (hw c (List.mem_cons_self c w))]
    exact ih fun c' hc' => hw c' (List.mem_cons_of_mem c hc')

theorem dropWhile_ws_eq_nil (t : List Char) (h : t.dropWhile isSpace = []) :
    ∀ c ∈ t, isSpace c = true := by
  induction t with
  | nil => intro c hc; cases hc
  | cons a t ih =>
    rw [List.dropWhile_cons] at h
    by_cases ha : isSpace a = true
    · rw [if_pos ha] at h
      intro c hc
      rcases List.mem_cons.mp hc with rfl | hc
      · exact ha
      · exact ih h c hc
    · rw [if_neg ha] at h
      cases h

theorem dropWhile_append_of_ne (t w : List Char) (h : t.dropWhile isSpace ≠ []) :
    (t ++ w).dropWhile isSpace = t.dropWhile isSpace ++ w := by
  induction t with
  | nil => exact absurd rfl h
  | cons a t ih =>
    rw [List.dropWhile_cons] at h
    by_cases ha : isSpace a = true
    · rw [if_pos ha] at h
      rw [List.cons_append, List.dropWhile_cons, if_pos ha, List.dropWhile_cons, if_pos ha,
        ih h]
    · rw [List.cons_append, List.dropWhile_cons, if_neg ha, List.dropWhile_cons, if_neg ha,
        List.cons_append]

theorem dropEndWs_append_ws (u w : List Char) (hw : ∀ c ∈ w, isSpace c = true) :
    dropEndWs (u ++ w) = dropEndWs u := by
  unfold dropEndWs
  rw [List.reverse_append, dropWhile_ws_append _ _ (fun c hc => hw c (List.mem_reverse.mp hc))]

theorem trimWs_ws_left (w t : List Char) (hw : ∀ c ∈ w, isSpace c = true) :
    trimWs (w ++ t) = trimWs t := by
  unfold trimWs
  rw [dropWhile_ws_append w t hw]

theorem trimWs_ws_right (t w : List Char) (hw : ∀ c ∈ w, isSpace c = true) :
    trimWs (t ++ w) = trimWs t := by
  unfold trimWs
  by_cases h : t.dropWhile isSpace = []
  · have hw2 : ∀ c ∈ t ++ w, isSpace c = true := by
      intro c hc
      rcases List.mem_append.mp hc with hc | hc
      · exact dropWhile_ws_eq_nil t h c hc
      · exact hw c hc
    have h2 : (t ++ w).dropWhile isSpace = [] := by
      cases hd : (t ++ w).dropWhile isSpace with
      | nil => rfl
      | cons x xs =>
        have hx : x ∈ (t ++ w).dropWhile isSpace := by rw [hd]; exact List.mem_cons_self x xs
        have hxm : x ∈ t ++ w := List.dropWhile_subset _ hx
        have : ¬ isSpace x = true := by
          have := List.head?_dropWhile_not isSpace (t ++ w)
          rw [hd] at this
          simpa using this
        exact absurd (hw2 x hxm) this
    rw [h, h2]
  · rw [dropWhile_append_of_ne t w h, dropEndWs_append_ws _ _ hw]

theorem exists_trim_decomp (x : List Char) :
    ∃ w1 w2, (∀ c ∈ w1, isSpace c = true) ∧ (∀ c ∈ w2, isSpace c = true) ∧
      x = (w1 ++ trimWs x) ++ w2 := by
  refine ⟨x.takeWhile isSpace, ((x.dropWhile isSpace).reverse.takeWhile isSpace).reverse,
    fun c hc => List.mem_takeWhile_imp hc,
    fun c hc => List.mem_takeWhile_imp (List.mem_reverse.mp hc), ?_⟩
  conv_lhs => rw [← List.takeWhile_append_dropWhile (p := isSpace) (l := x)]
  rw [List.append_assoc]
  congr 1
  conv_lhs => rw [← List.reverse_reverse (x.dropWhile isSpace),
    ← List.takeWhile_append_dropWhile (p := isSpace) (l := (x.dropWhile isSpace).reverse)]
  rw [List.reverse_append]
  unfold trimWs dropEndWs
  rfl

theorem removeUS_ws_left (w t : List Char) (hw : ∀ c ∈ w, isSpace c = true) :
    removeUS (w ++ t) = w ++ removeUS t := by
  induction w with
  | nil => rfl
  | cons c w ih =>
    have hc : isSpace c = true := hw c (List.mem_cons_self c w)
    have hw' : ∀ c' ∈ w, isSpace c' = true := fun c' hc' => hw c' (List.mem_cons_of_mem c hc')
    cases hwt : w ++ t with
    | nil =>
      rw [List.cons_append, hwt]
      rcases List.append_eq_nil.mp hwt with ⟨rfl, rfl⟩
      rfl
    | cons b l =>
      rw [List.cons_append, hwt, removeUS]
      have hcU : ¬ (c == 'U' && b == 'S') = true := by
        simp only [Bool.and_eq_true, beq_iff_eq, not_and]
        intro hcu
        exact absurd hc (by rw [hcu]; decide)
      rw [if_neg hcU, ← hwt, ih hw', List.cons_append]

theorem removeUS_wsOnly (w : List Char) (hw : ∀ c ∈ w, isSpace c = true) :
    removeUS w = w := by
  have h := removeUS_ws_left w [] hw
  rw [List.append_nil] at h
  rw [h, show removeUS [] = [] from rfl, List.append_nil]

theorem removeUS_ws_right (t w : List Char) (hw : ∀ c ∈ w, isSpace c = true) :
    removeUS (t ++ w) = removeUS t ++ w := by
  induction t using removeUS.induct with
  | case1 => simpa using removeUS_wsOnly w hw
  | case2 c =>
    cases w with
    | nil => simp
    | cons b w' =>
      have hb : isSpace b = true := hw b (List.mem_cons_self b w')
      have hcb : ¬ (c == 'U' && b == 'S') = true := by
        simp only [Bool.and_eq_true, beq_iff_eq, not_and]
        intro hcu
        exact fun hbS => absurd hb (by rw [hbS]; decide)
      rw [List.singleton_append,
        show removeUS (c :: b :: w') =
          (if (c == 'U' && b == 'S') = true then removeUS w'
           else c :: removeUS (b :: w')) from rfl,
        if_neg hcb, removeUS_wsOnly (b :: w') hw,
        show removeUS [c] = [c] from rfl, List.singleton_append]
  | case3 a b l hab ih =>
    rw [List.cons_append, List.cons_append, removeUS, if_pos hab, removeUS, if_pos hab]
    exact ih
  | case4 a b l hab ih =>
    rw [List.cons_append, List.cons_append, removeUS, if_neg hab, removeUS, if_neg hab]
    rw [← List.cons_append]
    rw [ih]
    rfl

theorem filter_ws (w : List Char) (hw : ∀ c ∈ w, isSpace c = true) :
    List.filter keepPriceChar w = w :=
  List.filter_eq_self.mpr fun c hc => (isSpace_props c (hw c hc)).2.2.2.2.2.2

theorem cleanStage2_trim (x : List Char) : cleanStage2 (trimWs x) = cleanStage2 x := by
  obtain ⟨w1, w2, h1, h2, hx⟩ := exists_trim_decomp x
  conv_rhs => rw [cleanStage2, hx]
  rw [removeUS_ws_right _ _ h2, removeUS_ws_left _ _ h1, List.filter_append,
    List.filter_append, filter_ws _ h1, filter_ws _ h2, trimWs_ws_right _ _ h2,
    trimWs_ws_left _ _ h1]
  rfl

theorem splitWsAux_eq_nil (x : List Char) :
    ∀ acc, splitWsAux x acc = [] → (∀ c ∈ x, isSpace c = true) ∧ acc = [] := by
  induction x with
  | nil =>
    intro acc h
    rw [splitWsAux] at h
    by_cases ha : acc.isEmpty
    · exact ⟨fun c hc => absurd hc (List.not_mem_nil c), List.isEmpty_iff.mp ha⟩
    · rw [if_neg ha] at h
      cases h
  | cons c x ih =>
    intro acc h
    rw [splitWsAux] at h
    by_cases hc : isSpace c = true
    · rw [if_pos hc] at h
      by_cases ha : acc.isEmpty
      · rw [if_pos ha] at h
        obtain ⟨hx, -⟩ := ih [] h
        refine ⟨fun c' hc' => ?_, List.isEmpty_iff.mp ha⟩
        rcases List.mem_cons.mp hc' with rfl | hc'
        · exact hc
        · exact hx c' hc'
      · rw [if_neg ha] at h
        cases h
    · rw [if_neg hc] at h
      obtain ⟨-, hacc⟩ := ih (c :: acc) h
      cases hacc


theorem foldl_min_le_init (t : List ℚ) : ∀ a : ℚ, t.foldl min a ≤ a := by
  induction t with
  | nil => intro a; exact le_refl a
  | cons h t ih => intro a; exact le_trans (ih (min a h)) (min_le_left a h)

theorem foldl_min_le_mem (t : List ℚ) : ∀ (a x : ℚ), x ∈ t → t.foldl min a ≤ x := by
  induction t with
  | nil => intro a x hx; cases hx
  | cons h t ih =>
    intro a x hx
    rcases List.mem_cons.mp hx with rfl | hx
    · exact le_trans (foldl_min_le_init t (min a x)) (min_le_right a x)
    · exact ih (min a h) x hx

theorem foldl_min_mem (t : List ℚ) : ∀ a : ℚ, t.foldl min a = a ∨ t.foldl min a ∈ t := by
  induction t with
  | nil => intro a; exact Or.inl rfl
  | cons h t ih =>
    intro a
    rcases ih (min a h) with heq | hmem
    · rcases min_choice a h with h1 | h1
      · exact Or.inl (by rw [List.foldl_cons, heq, h1])
      · refine Or.inr ?_
        rw [List.foldl_cons, heq, h1]
        exact List.mem_cons_self h t
    · exact Or.inr (List.mem_cons_of_mem h (by simpa [List.foldl_cons] using hmem))

theorem init_le_foldl_max (t : List ℚ) : ∀ a : ℚ, a ≤ t.foldl max a := by
  induction t with
  | nil => intro a; exact le_refl a
  | cons h t ih => intro a; exact le_trans (le_max_left a h) (ih (max a h))

theorem mem_le_foldl_max (t : List ℚ) : ∀ (a x : ℚ), x ∈ t → x ≤ t.foldl max a := by
  induction t with
  | nil => intro a x hx; cases hx
  | cons h t ih =>
    intro a x hx
    rcases List.mem_cons.mp hx with rfl | hx
    · exact le_trans (le_max_right a x) (init_le_foldl_max t (max a x))
    · exact ih (max a h) x hx

theorem foldl_max_mem (t : List ℚ) : ∀ a : ℚ, t.foldl max a = a ∨ t.foldl max a ∈ t := by
  induction t with
  | nil => intro a; exact Or.inl rfl
  | cons h t ih =>
    intro a
    rcases ih (max a h) with heq | hmem
    · rcases max_choice a h with h1 | h1
      · exact Or.inl (by rw [List.foldl_cons, heq, h1])
      · refine Or.inr ?_
        rw [List.foldl_cons, heq, h1]
        exact List.mem_cons_self h t
    · exact Or.inr (List.mem_cons_of_mem h (by simpa [List.foldl_cons] using hmem))

theorem minQ_mem (l : List ℚ) (h : l ≠ []) : minQ l ∈ l := by
  cases l with
  | nil => exact absurd rfl h
  | cons a t =>
    rcases foldl_min_mem t a with heq | hmem
    · rw [minQ, heq]; exact List.mem_cons_self a t
    · exact List.mem_cons_of_mem a (by rw [minQ]; exact hmem)

theorem minQ_le (l : List ℚ) (x : ℚ) (hx : x ∈ l) : minQ l ≤ x := by
  cases l with
  | nil => cases hx
  | cons a t =>
    rcases List.mem_cons.mp hx with rfl | hx
    · rw [minQ]; exact foldl_min_le_init t x
    · rw [minQ]; exact foldl_min_le_mem t a x hx

theorem maxQ_mem (l : List ℚ) (h : l ≠ []) : maxQ l ∈ l := by
  cases l with
  | nil => exact absurd rfl h
  | cons a t =>
    rcases foldl_max_mem t a with heq | hmem
    · rw [maxQ, heq]; exact List.mem_cons_self a t
    · exact List.mem_cons_of_mem a (by rw [maxQ]; exact hmem)

theorem le_maxQ (l : List ℚ) (x : ℚ) (hx : x ∈ l) : x ≤ maxQ l := by
  cases l with
  | nil => cases hx
  | cons a t =>
    rcases List.mem_cons.mp hx with rfl | hx
    · rw [maxQ]; exact init_le_foldl_max t x
    · rw [maxQ]; exact mem_le_foldl_max t a x hx

theorem cleanedOf_pos (cands : List Listing) (q : String) (m : ℤ) :
    ∀ c ∈ cleanedOf cands q m, 0 < c := by
  intro c hc
  unfold cleanedOf at hc
  rw [List.mem_filter] at hc
  simpa using hc.2

theorem parseFloat_ws_cons (c : Char) (x : List Char) (hc : isSpace c = true) :
    parseFloat (c :: x) = none := by
  rcases isSpace_cases c hc with rfl | rfl | rfl | rfl | rfl | rfl <;> rfl

theorem parseFloat_wsOnly (x : List Char) (hw : ∀ c ∈ x, isSpace c = true) :
    parseFloat x = none := by
  cases x with
  | nil => rfl
  | cons c x => exact parseFloat_ws_cons c x (hw c (List.mem_cons_self c x))

theorem codeSel_parse (x : List Char) :
    parseFloat (codeSel x) = parseFloat ((splitWs x).headD []) := by
  unfold codeSel
  cases hs : splitWs x with
  | nil =>
    obtain ⟨hx, -⟩ := splitWsAux_eq_nil x [] hs
    rw [parseFloat_wsOnly x hx]
    rfl
  | cons w ws => rfl

theorem cleanPriceL_eq_ref (l : List Char) : cleanPriceL l = refCleanPriceL l := by
  by_cases hl : l = []
  · subst hl; rfl
  · unfold cleanPriceL refCleanPriceL
    rw [if_neg hl]
    by_cases hto : containsSeq priceRangeSep l = true
    · rw [if_pos hto, if_pos hto, cleanStage2_trim, codeSel_parse]
    · rw [if_neg hto, if_neg hto, codeSel_parse]

/-! ### Claim theorems -/

/-- C3: `clean_price` coincides at every input string with the
specification's reference cleaning procedure (truncate at the first "to",
delete "US", "$" and ",", trim, keep the first whitespace-delimited
fragment, parse as a base-10 number), and takes the documented values on
the four examples. -/
theorem scraper_C3_clean_price_ref :
    (∀ s : String, clean_price s = refCleanPrice s) ∧
    clean_price "$1,234.56" = some ((123456 : ℚ) / 100) ∧
    clean_price "US $129.99" = some ((12999 : ℚ) / 100) ∧
    clean_price "$10.50 to $15.00" = some ((1050 : ℚ) / 100) ∧
    clean_price "Free" = none := by
  refine ⟨fun s => cleanPriceL_eq_ref s.data, ?_, ?_, ?_, by decide⟩
  · rw [show clean_price "$1,234.56" = some (mkRat 123456 100) from by decide,
      Rat.mkRat_eq_divInt, Rat.divInt_eq_div]
    norm_num
  · rw [show clean_price "US $129.99" = some (mkRat 12999 100) from by decide,
      Rat.mkRat_eq_divInt, Rat.divInt_eq_div]
    norm_num
  · rw [show clean_price "$10.50 to $15.00" = some (mkRat 1050 100) from by decide,
      Rat.mkRat_eq_divInt, Rat.divInt_eq_div]
    norm_num

/-- C5: with max_results at least 1, the accepted raw-price sequence never
exceeds max_results entries, and once a prefix of the candidates has already
produced max_results raw prices, appending further candidates changes neither
the collected raw prices nor the number of listings inspected by the loop. -/
theorem scraper_C5_max_results_cap (q : String) (m : ℤ) (cands pre post : List Listing)
    (h1 : 1 ≤ m) :
    ((get_item_value_sold_new cands q m).raw_prices.length : ℤ) ≤ m ∧
    (((get_item_value_sold_new pre q m).raw_prices.length : ℤ) = m →
      (get_item_value_sold_new (pre ++ post) q m).raw_prices =
        (get_item_value_sold_new pre q m).raw_prices ∧
      inspectCount q m (pre ++ post) [] = inspectCount q m pre []) := by
  constructor
  · rw [get_item_raw]
    exact collectAux_length_le q m cands []
      (by simp only [List.length_nil]; omega)
  · intro hm
    rw [get_item_raw] at hm
    have h := collectAux_stop q m pre [] post (le_of_eq hm.symm)
      (by simp only [List.length_nil]; omega)
    refine ⟨?_, h.2⟩
    rw [get_item_raw, get_item_raw]
    exact h.1

/-- Witness for C5: one qualifying listing fills the cap max_results = 1 and a
second qualifying candidate after it is never collected nor inspected. -/
theorem scraper_C5_max_results_cap_w :
    ((get_item_value_sold_new [⟨"iPhone", "$5.00"⟩] "iphone" 1).raw_prices.length : ℤ) ≤ 1 ∧
    (get_item_value_sold_new ([⟨"iPhone", "$5.00"⟩] ++ [⟨"iPhone", "$6.00"⟩]) "iphone" 1).raw_prices =
      (get_item_value_sold_new [⟨"iPhone", "$5.00"⟩] "iphone" 1).raw_prices := by
  have h := scraper_C5_max_results_cap "iphone" 1 [⟨"iPhone", "$5.00"⟩]
    [⟨"iPhone", "$5.00"⟩] [⟨"iPhone", "$6.00"⟩] (by norm_num)
  exact ⟨h.1, (h.2 (by rw [get_item_raw]; decide)).1⟩

/-- C10: when max_results is not positive the aggregate still returns a
summary, and since the cap is tested only after an append, the raw-price
sequence has exactly one entry as soon as some candidate qualifies (and is
empty when none does). -/
theorem scraper_C10_nonpositive_cap (cands : List Listing) (q : String) (m : ℤ)
    (hm : m ≤ 0) :
    ((∃ l ∈ cands, acceptedPrice l q ≠ none) →
      (get_item_value_sold_new cands q m).raw_prices.length = 1) ∧
    ((∀ l ∈ cands, acceptedPrice l q = none) →
      (get_item_value_sold_new cands q m).raw_prices = []) := by
  constructor
  · intro h
    rw [get_item_raw]
    exact collectAux_first_hit q m hm cands h
  · intro h
    rw [get_item_raw]
    exact collectAux_all_none q m cands [] h

/-- Witness for C10: two qualifying candidates under max_results = 0 yield
exactly one collected price. -/
theorem scraper_C10_nonpositive_cap_w :
    (get_item_value_sold_new [⟨"iPhone", "$5.00"⟩, ⟨"iPhone", "$6.00"⟩] "iphone" 0).raw_prices.length = 1 :=
  (scraper_C10_nonpositive_cap [⟨"iPhone", "$5.00"⟩, ⟨"iPhone", "$6.00"⟩] "iphone" 0
    (by norm_num)).1 ⟨⟨"iPhone", "$5.00"⟩, List.mem_cons_self _ _, by decide⟩

/-- C7: `looks_like_accessory` is true iff the lowercased title contains some
keyword of ACCESSORY_KEYWORDS as a contiguous substring; in particular true
on "iPhone 11 Screen Protector", false on "iPhone 11 Pro", and true on a
title containing "Casework" (substring, not token, containment). -/
theorem scraper_C7_accessory_iff :
    (∀ title : String, looks_like_accessory title = true ↔
      ∃ w ∈ ACCESSORY_KEYWORDS, ∃ p q, lowerL title.data = p ++ w.data ++ q) ∧
    looks_like_accessory "iPhone 11 Screen Protector" = true ∧
    looks_like_accessory "iPhone 11 Pro" = false ∧
    looks_like_accessory "Vintage Casework" = true := by
  refine ⟨?_, by decide, by decide, by decide⟩
  intro title
  simp only [looks_like_accessory, List.any_eq_true, containsSeq_iff]

/-- Witness for C7 at the concrete title "iPhone 11 Screen Protector". -/
theorem scraper_C7_accessory_iff_w :
    ∃ w ∈ ACCESSORY_KEYWORDS, ∃ p q,
      lowerL ("iPhone 11 Screen Protector" : String).data = p ++ w.data ++ q :=
  (scraper_C7_accessory_iff.1 "iPhone 11 Screen Protector").mp (by decide)

/-- C2: `title_exact_match title query` is true iff the query's important
(non-stopword) token list is empty or every important query token occurs as
an exact whole token among the tokens of the normalized title. -/
theorem scraper_C2_title_match_iff (title query : String) :
    title_exact_match title query = true ↔
      (important_query_tokens query = [] ∨
        ∀ t ∈ important_query_tokens query, t ∈ tokenize title) := by
  unfold title_exact_match
  by_cases hq : important_query_tokens query = []
  · simp [hq]
  · rw [if_neg (by simpa [List.isEmpty_iff] using hq), or_iff_right hq]
    simp only [List.all_eq_true, List.contains, List.elem_iff]

/-- Witness for C2 at the concrete pair of the specification. -/
theorem scraper_C2_title_match_iff_w :
    title_exact_match "Apple iPhone 11 Pro Max 256GB" "iphone 11" = true :=
  (scraper_C2_title_match_iff "Apple iPhone 11 Pro Max 256GB" "iphone 11").mpr
    (Or.inr (by decide))

/-- C4 counterexample: the claim says a listing is rejected iff its title is
empty, or EQUALS "shop on ebay" case-insensitively, or fails the title
match, or is an accessory, or has no price text.  The listing titled
"Shop on eBay today" with text "$5.00" and query "shop" satisfies none of
those five conditions, yet the code rejects it, because the code tests
substring containment of the placeholder, not equality. -/
theorem scraper_C4_counterexample :
    ¬ (acceptedPrice ⟨"Shop on eBay today", "$5.00"⟩ "shop" = none ↔
      (trimWs ("Shop on eBay today" : String).data = [] ∨
       lowerL (trimWs ("Shop on eBay today" : String).data) = "shop on ebay".data ∨
       title_exact_match (String.mk (trimWs ("Shop on eBay today" : String).data))
         "shop" = false ∨
       looks_like_accessory (String.mk (trimWs ("Shop on eBay today" : String).data))
         = true ∨
       findPrice ("$5.00" : String).data = none)) := by
  decide

/-- C4 (amended): a candidate listing is rejected iff its stripped title is
empty, or its lowercased title CONTAINS the placeholder phrase
"shop on ebay" as a substring, or it fails `title_exact_match`, or
`looks_like_accessory` holds, or the price pattern finds no match in its
text block; otherwise the first matched price substring of the text block
is the accepted price. -/
theorem scraper_C4_reject_iff (l : Listing) (q : String) :
    (acceptedPrice l q = none ↔
      (trimWs l.title.data = [] ∨
       containsSeq ("shop on ebay".data) (lowerL (trimWs l.title.data)) = true ∨
       title_exact_match (String.mk (trimWs l.title.data)) q = false ∨
       looks_like_accessory (String.mk (trimWs l.title.data)) = true ∨
       findPrice l.text.data = none)) ∧
    (∀ p, acceptedPrice l q = some p → findPrice l.text.data = some p) := by
  by_cases h1 : trimWs l.title.data = []
  · constructor
    · simp [acceptedPrice, h1]
    · intro p hp
      rw [acceptedPrice] at hp
      simp [h1] at hp
  · by_cases h2 : containsSeq ("shop on ebay".data) (lowerL (trimWs l.title.data)) = true
    · constructor
      · simp [acceptedPrice, h1, h2]
      · intro p hp
        rw [acceptedPrice] at hp
        simp [h1, h2] at hp
    · by_cases h3 : title_exact_match (String.mk (trimWs l.title.data)) q = true
      · by_cases h4 : looks_like_accessory (String.mk (trimWs l.title.data)) = true
        · constructor
          · simp [acceptedPrice, h1, h2, h3, h4]
          · intro p hp
            rw [acceptedPrice] at hp
            simp [h1, h2, h3, h4] at hp
        · constructor
          · simp [acceptedPrice, h1, h2, h3, h4]
          · intro p hp
            rw [acceptedPrice] at hp
            simpa [h1, h2, h3, h4] using hp
      · replace h3 : title_exact_match (String.mk (trimWs l.title.data)) q = false := by
          simpa using h3
        constructor
        · simp [acceptedPrice, h1, h2, h3]
        · intro p hp
          rw [acceptedPrice] at hp
          simp [h1, h2, h3] at hp

/-- Witness for the amended C4: an accepted listing's accepted price is the
leftmost price-pattern match of its text block. -/
theorem scraper_C4_reject_iff_w :
    findPrice ("Sold $350.00" : String).data = some ("$350.00".data) :=
  (scraper_C4_reject_iff ⟨"iPhone 11", "Sold $350.00"⟩ "iphone").2
    ("$350.00".data) (by decide)

/-- C1: invariants of every returned summary: count equals the length of the
cleaned prices; every cleaned price is positive and is the parsed value of
some collected raw price; a zero count comes with all four statistics equal
to 0 and the fixed error message; a positive count comes with no error. -/
theorem scraper_C1_summary_invariants (cands : List Listing) (q : String) (m : ℤ) :
    (get_item_value_sold_new cands q m).count =
      (get_item_value_sold_new cands q m).cleaned_prices.length ∧
    (∀ c ∈ (get_item_value_sold_new cands q m).cleaned_prices,
      0 < c ∧ ∃ p ∈ (get_item_value_sold_new cands q m).raw_prices, cleanPriceL p = some c) ∧
    ((get_item_value_sold_new cands q m).count = 0 →
      (get_item_value_sold_new cands q m).average_price = 0 ∧
      (get_item_value_sold_new cands q m).median_price = 0 ∧
      (get_item_value_sold_new cands q m).min_price = 0 ∧
      (get_item_value_sold_new cands q m).max_price = 0 ∧
      (get_item_value_sold_new cands q m).error =
        some "No matching sold NEW listings found.") ∧
    (0 < (get_item_value_sold_new cands q m).count →
      (get_item_value_sold_new cands q m).error = none) := by
  refine ⟨?_, ?_, ?_, ?_⟩
  · rw [get_item_count, get_item_cleaned]
  · rw [get_item_cleaned, get_item_raw]
    intro c hc
    refine ⟨cleanedOf_pos cands q m c hc, ?_⟩
    unfold cleanedOf at hc
    rw [List.mem_filter] at hc
    rw [List.mem_filterMap] at hc
    obtain ⟨⟨p, hp, hcp⟩, -⟩ := hc
    exact ⟨p, hp, hcp⟩
  · intro h0
    rw [get_item_count] at h0
    rw [get_item_nil _ _ _ (List.length_eq_zero.mp h0)]
    exact ⟨rfl, rfl, rfl, rfl, rfl⟩
  · intro hpos
    rw [get_item_count] at hpos
    have hne : cleanedOf cands q m ≠ [] := by
      intro hx
      rw [hx] at hpos
      exact absurd hpos (by simp)
    rw [get_item_pos _ _ _ hne]

/-- Witness for C1 at an empty candidate list: the zero-count branch fires. -/
theorem scraper_C1_summary_invariants_w :
    (get_item_value_sold_new [] "iphone" 5).error =
      some "No matching sold NEW listings found." ∧
    (get_item_value_sold_new [] "iphone" 5).min_price = 0 := by
  have h := scraper_C1_summary_invariants [] "iphone" 5
  have h0 : (get_item_value_sold_new [] "iphone" 5).count = 0 := by decide
  obtain ⟨-, -, h3, -⟩ := h
  obtain ⟨-, -, h33, -, h35⟩ := h3 h0
  exact ⟨h35, h33⟩

/-- C6: on a non-empty result the summary's statistics are the arithmetic
mean, the statistical median (average of the two middle elements of the
sorted list for even lengths), and the extrema of the cleaned prices, with
no error. -/
theorem scraper_C6_stats_nonempty (cands : List Listing) (q : String) (m : ℤ)
    (h : 0 < (get_item_value_sold_new cands q m).count) :
    (get_item_value_sold_new cands q m).error = none ∧
    (get_item_value_sold_new cands q m).average_price =
      (get_item_value_sold_new cands q m).cleaned_prices.sum /
        ((get_item_value_sold_new cands q m).cleaned_prices.length : ℚ) ∧
    ((get_item_value_sold_new cands q m).min_price ∈
        (get_item_value_sold_new cands q m).cleaned_prices ∧
      ∀ x ∈ (get_item_value_sold_new cands q m).cleaned_prices,
        (get_item_value_sold_new cands q m).min_price ≤ x) ∧
    ((get_item_value_sold_new cands q m).max_price ∈
        (get_item_value_sold_new cands q m).cleaned_prices ∧
      ∀ x ∈ (get_item_value_sold_new cands q m).cleaned_prices,
        x ≤ (get_item_value_sold_new cands q m).max_price) ∧
    (∃ s : List ℚ,
      s.Perm (get_item_value_sold_new cands q m).cleaned_prices ∧
      s.Sorted (· ≤ ·) ∧
      (get_item_value_sold_new cands q m).median_price =
        (if s.length % 2 = 1 then s.getD (s.length / 2) 0
         else (s.getD (s.length / 2 - 1) 0 + s.getD (s.length / 2) 0) / 2)) := by
  rw [get_item_count] at h
  have hne : cleanedOf cands q m ≠ [] := by
    intro hx
    rw [hx] at h
    exact absurd h (by simp)
  rw [get_item_pos _ _ _ hne]
  refine ⟨rfl, rfl, ⟨minQ_mem _ hne, fun x hx => minQ_le _ x hx⟩,
    ⟨maxQ_mem _ hne, fun x hx => le_maxQ _ x hx⟩, ?_⟩
  exact ⟨(cleanedOf cands q m).insertionSort (· ≤ ·),
    List.perm_insertionSort (· ≤ ·) _, List.sorted_insertionSort (· ≤ ·) _, rfl⟩

/-- Witness for C6 at a single qualifying listing. -/
theorem scraper_C6_stats_nonempty_w :
    (get_item_value_sold_new [⟨"iPhone", "$5.00"⟩] "iphone" 5).error = none :=
  (scraper_C6_stats_nonempty [⟨"iPhone", "$5.00"⟩] "iphone" 5 (by decide)).1

/-- C9: on a non-empty result the statistics are mutually consistent:
the minimum is positive and average and median both lie between the
minimum and the maximum (hence all four statistics are positive). -/
theorem scraper_C9_stats_consistent (cands : List Listing) (q : String) (m : ℤ)
    (h : 0 < (get_item_value_sold_new cands q m).count) :
    0 < (get_item_value_sold_new cands q m).min_price ∧
    (get_item_value_sold_new cands q m).min_price ≤
      (get_item_value_sold_new cands q m).average_price ∧
    (get_item_value_sold_new cands q m).average_price ≤
      (get_item_value_sold_new cands q m).max_price ∧
    (get_item_value_sold_new cands q m).min_price ≤
      (get_item_value_sold_new cands q m).median_price ∧
    (get_item_value_sold_new cands q m).median_price ≤
      (get_item_value_sold_new cands q m).max_price := by
  rw [get_item_count] at h
  have hne : cleanedOf cands q m ≠ [] := by
    intro hx
    rw [hx] at h
    exact absurd h (by simp)
  rw [get_item_pos _ _ _ hne]
  have hpos := cleanedOf_pos cands q m
  have hminle := fun x hx => minQ_le (cleanedOf cands q m) x hx
  have hmaxle := fun x hx => le_maxQ (cleanedOf cands q m) x hx
  have hn : (0 : ℚ) < ((cleanedOf cands q m).length : ℚ) := by
    have := List.length_pos.mpr hne
    exact_mod_cast this
  have hsum_lo : ((cleanedOf cands q m).length : ℚ) * minQ (cleanedOf cands q m) ≤
      (cleanedOf cands q m).sum := by
    have := List.card_nsmul_le_sum (cleanedOf cands q m) (minQ (cleanedOf cands q m)) hminle
    simpa [nsmul_eq_mul] using this
  have hsum_hi : (cleanedOf cands q m).sum ≤
      ((cleanedOf cands q m).length : ℚ) * maxQ (cleanedOf cands q m) := by
    have := List.sum_le_card_nsmul (cleanedOf cands q m) (maxQ (cleanedOf cands q m)) hmaxle
    simpa [nsmul_eq_mul] using this
  have hget : ∀ i, i < ((cleanedOf cands q m).insertionSort (· ≤ ·)).length →
      minQ (cleanedOf cands q m) ≤ ((cleanedOf cands q m).insertionSort (· ≤ ·)).getD i 0 ∧
      ((cleanedOf cands q m).insertionSort (· ≤ ·)).getD i 0 ≤ maxQ (cleanedOf cands q m) := by
    intro i hi
    have hmem : ((cleanedOf cands q m).insertionSort (· ≤ ·)).getD i 0 ∈ cleanedOf cands q m := by
      rw [List.getD_eq_getElem _ _ hi]
      exact (List.perm_insertionSort (· ≤ ·) (cleanedOf cands q m)).subset
        (List.getElem_mem hi)
    exact ⟨hminle _ hmem, hmaxle _ hmem⟩
  have hslen : ((cleanedOf cands q m).insertionSort (· ≤ ·)).length =
      (cleanedOf cands q m).length := List.length_insertionSort _ _
  have hlpos : 0 < (cleanedOf cands q m).length := List.length_pos.mpr hne
  refine ⟨hpos _ (minQ_mem _ hne), ?_, ?_, ?_, ?_⟩
  · rw [le_div_iff₀ hn]
    calc minQ (cleanedOf cands q m) * ((cleanedOf cands q m).length : ℚ)
        = ((cleanedOf cands q m).length : ℚ) * minQ (cleanedOf cands q m) := mul_comm _ _
      _ ≤ (cleanedOf cands q m).sum := hsum_lo
  · rw [div_le_iff₀ hn]
    calc (cleanedOf cands q m).sum
        ≤ ((cleanedOf cands q m).length : ℚ) * maxQ (cleanedOf cands q m) := hsum_hi
      _ = maxQ (cleanedOf cands q m) * ((cleanedOf cands q m).length : ℚ) := mul_comm _ _
  · unfold medianQ
    by_cases hpar : ((cleanedOf cands q m).insertionSort (· ≤ ·)).length % 2 = 1
    · rw [if_pos hpar]
      exact (hget _ (by omega)).1
    · rw [if_neg hpar]
      have h1 := hget (((cleanedOf cands q m).insertionSort (· ≤ ·)).length / 2 - 1)
        (by omega)
      have h2 := hget (((cleanedOf cands q m).insertionSort (· ≤ ·)).length / 2)
        (by omega)
      have := h1.1
      have := h2.1
      linarith
  · unfold medianQ
    by_cases hpar : ((cleanedOf cands q m).insertionSort (· ≤ ·)).length % 2 = 1
    · rw [if_pos hpar]
      exact (hget _ (by omega)).2
    · rw [if_neg hpar]
      have h1 := hget (((cleanedOf cands q m).insertionSort (· ≤ ·)).length / 2 - 1)
        (by omega)
      have h2 := hget (((cleanedOf cands q m).insertionSort (· ≤ ·)).length / 2)
        (by omega)
      have := h1.2
      have := h2.2
      linarith

/-- Witness for C9 at a single qualifying listing. -/
theorem scraper_C9_stats_consistent_w :
    0 < (get_item_value_sold_new [⟨"iPhone", "$7.50"⟩] "iphone" 5).min_price :=
  (scraper_C9_stats_consistent [⟨"iPhone", "$7.50"⟩] "iphone" 5 (by decide)).1

/-- C8: on the three candidate listings of the end-to-end scenario with query
"iphone 11" and max_results = 5, the aggregate returns raw prices
["$350.00", "$410.00"] (the case listing rejected by the accessory filter),
cleaned prices [350, 410], count 2, average 380, median 380, min 350,
max 410, and no error. -/
theorem scraper_C8_end_to_end :
    get_item_value_sold_new
      [⟨"iPhone 11 64GB Black", "Sold $350.00"⟩, ⟨"iPhone 11 Case Blue", "$12.99"⟩,
       ⟨"iPhone 11 128GB", "$410.00 Free shipping"⟩] "iphone 11" 5 =
      ⟨"iphone 11", ["$350.00".data, "$410.00".data], [350, 410], 2, 380, 380, 350, 410,
        none⟩ := by
  have hcl : cleanedOf
      [⟨"iPhone 11 64GB Black", "Sold $350.00"⟩, ⟨"iPhone 11 Case Blue", "$12.99"⟩,
       ⟨"iPhone 11 128GB", "$410.00 Free shipping"⟩] "iphone 11" 5 = [350, 410] := by
    decide
  have hraw : rawPricesOf
      [⟨"iPhone 11 64GB Black", "Sold $350.00"⟩, ⟨"iPhone 11 Case Blue", "$12.99"⟩,
       ⟨"iPhone 11 128GB", "$410.00 Free shipping"⟩] "iphone 11" 5 =
      ["$350.00".data, "$410.00".data] := by
    decide
  rw [get_item_pos _ _ _ (by rw [hcl]; exact fun hx => by cases hx), hcl, hraw]
  have hmed : medianQ [(350 : ℚ), 410] = 380 := by
    have hs : List.insertionSort (· ≤ ·) [(350 : ℚ), 410] = [350, 410] := by decide
    simp only [medianQ, hs]
    norm_num
  have hmin : minQ [(350 : ℚ), 410] = 350 := by decide
  have hmax : maxQ [(350 : ℚ), 410] = 410 := by decide
  rw [hmed, hmin, hmax]
  norm_num [ResultSummary.mk.injEq, List.sum_cons, List.sum_nil]

end Scraper
